import Mathlib

/-!
Formal model of the OGDF radix heap
(`include/ogdf/internal/heap/RadixHeap.h`).

The C++ class `RadixHeap<V, P>` is generic over a value type `V` and an
unsigned integral priority type `P` of bit width `BITS = 8 * sizeof(P)`.
We model values of `P` as natural numbers smaller than `2 ^ B`, with the
width `B` a parameter of the heap state.  The doubly linked intra-bucket
lists are modelled as Lean lists whose head corresponds to the C++ list
head (`insert` links a node at the head of its bucket), and the array
`m_buckets` of `BITS + 1` bucket heads is modelled as a function from
bucket indices to lists (indices above `B` are always empty).  Fallible
operations (`pop` on a state where the source would dereference a null
pointer) return `Option`.
-/

namespace OgdfRadix

/-- Portable fallback of `RadixHeap::msbSet` (the bit-by-bit template):
shift the mask right until it is zero, counting iterations.  Returns the
1-based position of the most significant set bit, and `0` for mask `0`. -/
def msbSet (mask : Nat) : Nat :=
  if h : mask = 0 then 0 else msbSet (mask / 2) + 1
decreasing_by exact Nat.div_lt_self (Nat.pos_of_ne_zero h) (by decide)

/-- Count of leading zero bits of `mask` in a word of width `w`: scan from
bit `w - 1` downwards and count zero bits until the first set bit.  This
models the semantics of `__builtin_clz` / `__builtin_clzl` /
`__builtin_clzll` on an argument of bit width `w` (the C++ code only
invokes the builtin on nonzero arguments). -/
def clz : Nat → Nat → Nat
  | 0, _ => 0
  | w + 1, mask => if mask.testBit w then 0 else clz w mask + 1

/-- The builtin-based overloads of `RadixHeap::msbSet`:
`mask == 0 ? 0 : (BITS - __builtin_clz(mask))`, where the word width of
the argument type equals `BITS` for the overload that is selected. -/
def msbSetBuiltin (w mask : Nat) : Nat :=
  if mask = 0 then 0 else w - clz w mask

/-- Model of `RadixHeapNode<V, P>`: the payload and the priority.  The
`prev` / `next` pointers of the C++ node are represented by the position
of the node inside its bucket's list. -/
structure RadixHeapNode (V : Type) where
  value : V
  priority : Nat
deriving DecidableEq, Repr

/-- Model of the state of `RadixHeap<V, P>`, with `B = BITS = 8 * sizeof(P)`.
`m_buckets j` is the list of nodes of bucket `j` in head-to-tail order. -/
structure RadixHeap (V : Type) (B : Nat) where
  m_size : Nat
  m_minimum : Nat
  m_bucketMask : Nat
  m_buckets : Nat → List (RadixHeapNode V)

variable {V : Type} {B : Nat}

/-- The constructor `RadixHeap()`: size 0, minimum 0, mask 0, all buckets
empty (`m_buckets.fill(nullptr)`). -/
def RadixHeap.new (V : Type) (B : Nat) : RadixHeap V B :=
  ⟨0, 0, 0, fun _ => []⟩

/-- `RadixHeap::size()`. -/
def RadixHeap.size (h : RadixHeap V B) : Nat :=
  h.m_size

/-- `RadixHeap::empty()`: `size() == 0`. -/
def RadixHeap.empty (h : RadixHeap V B) : Bool :=
  h.size == 0

/-- `RadixHeap::insert(node)`: link `node` at the head of bucket
`ind = msbSet(node->priority ^ m_minimum)`; if `ind != 0`, set bit
`BITS - ind` of `m_bucketMask`. -/
def RadixHeap.insert (h : RadixHeap V B) (node : RadixHeapNode V) : RadixHeap V B :=
  let ind := msbSet (node.priority ^^^ h.m_minimum)
  { h with
    m_buckets := fun j => if j = ind then node :: h.m_buckets ind else h.m_buckets j
    m_bucketMask :=
      if ind ≠ 0 then h.m_bucketMask ||| 2 ^ (B - ind) else h.m_bucketMask }

/-- `RadixHeap::push(value, priority)`: increment `m_size`, allocate a node
and `insert` it; the node is also returned as the handle. -/
def RadixHeap.push (h : RadixHeap V B) (value : V) (priority : Nat) :
    RadixHeap V B × RadixHeapNode V :=
  let node : RadixHeapNode V := ⟨value, priority⟩
  (RadixHeap.insert { h with m_size := h.m_size + 1 } node, node)

/-- The scan-and-unlink step of `RadixHeap::pop` (lines 210-225 of the
source): walk the bucket list accumulating the first node whose priority
is strictly smaller than the current candidate (so the first node in
head-to-tail order among those of minimal priority is selected), and
unlink it.  Returns the selected node together with the remaining list in
its original order; `none` for the empty list (where the source would
dereference a null pointer). -/
def scanMin : List (RadixHeapNode V) → Option (RadixHeapNode V × List (RadixHeapNode V))
  | [] => none
  | n :: ns =>
    match scanMin ns with
    | none => some (n, [])
    | some (m, rest) =>
      if m.priority < n.priority then some (m, n :: rest) else some (n, ns)

/-- `RadixHeap::pop()`, returning the popped node together with the new
state.  The source decrements `m_size`; if bucket 0 is non-empty it
unlinks and returns its head.  Otherwise it computes
`ind = BITS + 1 - msbSet(m_bucketMask)`, empties bucket `ind`, clears bit
`BITS - ind` of the mask (when `ind != 0`), scans the drained bucket for
its minimal node, sets `m_minimum` to that node's priority, and re-`insert`s
every remaining node of the drained bucket in list order.  The source
clears the mask bit before the scan; the two steps are independent, so the
order chosen here is equivalent.  States on which the source would
dereference a null pointer (empty heap) yield `none`. -/
def RadixHeap.popNode (h : RadixHeap V B) :
    Option (RadixHeapNode V × RadixHeap V B) :=
  match h.m_buckets 0 with
  | n :: rest =>
    some (n, { h with
      m_size := h.m_size - 1
      m_buckets := fun j => if j = 0 then rest else h.m_buckets j })
  | [] =>
    let ind := B + 1 - msbSet h.m_bucketMask
    match scanMin (h.m_buckets ind) with
    | none => none
    | some (minNode, rest) =>
      let h2 : RadixHeap V B :=
        { m_size := h.m_size - 1
          m_minimum := minNode.priority
          m_bucketMask :=
            if ind ≠ 0 then h.m_bucketMask ^^^ 2 ^ (B - ind) else h.m_bucketMask
          m_buckets := fun j => if j = ind then [] else h.m_buckets j }
      some (minNode, rest.foldl RadixHeap.insert h2)

/-- `RadixHeap::pop()` as in the source signature: only the value of the
popped node is returned. -/
def RadixHeap.pop (h : RadixHeap V B) : Option (V × RadixHeap V B) :=
  h.popNode.map (fun x => (x.1.value, x.2))

/-- The multiset of live nodes of the heap: the contents of buckets
`0 .. B`. -/
def RadixHeap.nodes (h : RadixHeap V B) : Multiset (RadixHeapNode V) :=
  ∑ j ∈ Finset.range (B + 1), (h.m_buckets j : Multiset (RadixHeapNode V))

/-- A single client operation on the heap. -/
inductive Op (V : Type) where
  | push (value : V) (priority : Nat)
  | pop

/-- Run a list of operations from state `h`, checking the documented
preconditions: a push requires `priority ≥ m_minimum` (monotone
insertion) and `priority < 2 ^ B` (the priority is a value of the type
`P`), a pop requires a non-empty heap.  Returns the final state together
with the list of popped nodes in pop order; `none` if some precondition
is violated. -/
def runOps (h : RadixHeap V B) :
    List (Op V) → Option (RadixHeap V B × List (RadixHeapNode V))
  | [] => some (h, [])
  | Op.push v p :: ops =>
    if h.m_minimum ≤ p ∧ p < 2 ^ B then runOps (h.push v p).1 ops else none
  | Op.pop :: ops =>
    if h.m_size ≠ 0 then
      match h.popNode with
      | none => none
      | some (q, h2) =>
        match runOps h2 ops with
        | none => none
        | some (hf, qs) => some (hf, q :: qs)
    else none

/-- Pop repeatedly (at most `fuel` times), collecting the popped nodes. -/
def drain : RadixHeap V B → Nat → List (RadixHeapNode V)
  | _, 0 => []
  | h, fuel + 1 =>
    match h.popNode with
    | none => []
    | some (q, h2) => q :: drain h2 fuel

/-- Push a list of (value, priority) pairs in order. -/
def pushAll (h : RadixHeap V B) (items : List (V × Nat)) : RadixHeap V B :=
  items.foldl (fun g x => (g.push x.1 x.2).1) h

/-- The structural invariant on the bucket, mask and minimum fields of a
reachable heap state (the size field is treated separately, in `Inv`). -/
structure InvB (h : RadixHeap V B) : Prop where
  min_lt : h.m_minimum < 2 ^ B
  prio_lt : ∀ j, ∀ n ∈ h.m_buckets j, n.priority < 2 ^ B
  prio_ge : ∀ j, ∀ n ∈ h.m_buckets j, h.m_minimum ≤ n.priority
  bucket_eq : ∀ j, ∀ n ∈ h.m_buckets j, j = msbSet (n.priority ^^^ h.m_minimum)
  mask_iff : ∀ i, 1 ≤ i → i ≤ B →
    (h.m_bucketMask.testBit (B - i) = true ↔ h.m_buckets i ≠ [])
  mask_lt : h.m_bucketMask < 2 ^ B

/-- The full invariant: the structural invariant plus the size field
counting the live nodes. -/
def Inv (h : RadixHeap V B) : Prop :=
  InvB h ∧ h.m_size = Multiset.card h.nodes

/-- The state reached by the bucket-0 fast path of `pop`: size decremented,
head of bucket 0 unlinked, everything else unchanged. -/
def fastState (h : RadixHeap V B) (rest : List (RadixHeapNode V)) : RadixHeap V B :=
  { h with
    m_size := h.m_size - 1
    m_buckets := fun j => if j = 0 then rest else h.m_buckets j }

/-- The intermediate state of the slow path of `pop`, before the remaining
nodes of the drained bucket `ind` are re-inserted: size decremented, new
minimum `q.priority`, occupancy bit of bucket `ind` cleared, bucket `ind`
emptied. -/
def midState (h : RadixHeap V B) (q : RadixHeapNode V) (ind : Nat) : RadixHeap V B :=
  { m_size := h.m_size - 1
    m_minimum := q.priority
    m_bucketMask := h.m_bucketMask ^^^ 2 ^ (B - ind)
    m_buckets := fun j => if j = ind then [] else h.m_buckets j }

/-- Number of push operations in a list of operations. -/
def countPushes : List (Op V) → Nat
  | [] => 0
  | Op.push _ _ :: ops => countPushes ops + 1
  | Op.pop :: ops => countPushes ops

/-- Number of pop operations in a list of operations. -/
def countPops : List (Op V) → Nat
  | [] => 0
  | Op.push _ _ :: ops => countPops ops
  | Op.pop :: ops => countPops ops + 1

/-- The states reachable from a freshly constructed heap by
precondition-respecting pushes and pops. -/
inductive Reachable : RadixHeap V B → Prop where
  | init : Reachable (RadixHeap.new V B)
  | push (h : RadixHeap V B) (v : V) (p : Nat) : Reachable h →
      h.m_minimum ≤ p → p < 2 ^ B → Reachable (h.push v p).1
  | pop (h h2 : RadixHeap V B) (q : RadixHeapNode V) : Reachable h →
      h.m_size ≠ 0 → h.popNode = some (q, h2) → Reachable h2

/-- The operation sequence of the concrete scenario of the specification:
push ("a", 5), push ("b", 2), push ("c", 8), pop, push ("d", 6), pop, pop,
pop. -/
def scenarioOps : List (Op String) :=
  [Op.push "a" 5, Op.push "b" 2, Op.push "c" 8, Op.pop,
   Op.push "d" 6, Op.pop, Op.pop, Op.pop]

/-! ### Basic facts about msbSet -/

theorem msbSet_zero : msbSet 0 = 0 := by
  rw [msbSet]
  simp

theorem msbSet_le_iff (n k : Nat) : msbSet n ≤ k ↔ n < 2 ^ k := by
  induction n using Nat.strong_induction_on generalizing k with
  | _ n ih =>
    by_cases h0 : n = 0
    · subst h0
      rw [msbSet_zero]
      simp [Nat.two_pow_pos]
    · rw [msbSet]
      simp only [h0, dif_neg, not_false_iff]
      cases k with
      | zero =>
        simp only [Nat.pow_zero, Nat.lt_one_iff]
        omega
      | succ k =>
        have hdiv : n / 2 < n := Nat.div_lt_self (Nat.pos_of_ne_zero h0) (by decide)
        rw [Nat.succ_le_succ_iff, ih (n / 2) hdiv k, Nat.pow_succ,
          ← Nat.div_lt_iff_lt_mul (by decide)]

theorem msbSet_eq_zero_iff (n : Nat) : msbSet n = 0 ↔ n = 0 := by
  constructor
  · intro h
    have h1 := (msbSet_le_iff n 0).mp (Nat.le_of_eq h)
    simpa using h1
  · intro h
    subst h
    exact msbSet_zero

theorem two_pow_msbSet_pred_le (n : Nat) (h : n ≠ 0) : 2 ^ (msbSet n - 1) ≤ n := by
  by_contra hlt
  have h1 : msbSet n ≤ msbSet n - 1 :=
    (msbSet_le_iff n (msbSet n - 1)).mpr (Nat.lt_of_not_le hlt)
  have h2 : msbSet n ≠ 0 := fun hh => h ((msbSet_eq_zero_iff n).mp hh)
  omega

theorem lt_two_pow_msbSet (n : Nat) : n < 2 ^ msbSet n :=
  (msbSet_le_iff n (msbSet n)).mp (Nat.le_refl _)

theorem testBit_false_of_msbSet_le (n j : Nat) (h : msbSet n ≤ j) :
    n.testBit j = false := by
  apply Nat.testBit_lt_two_pow
  calc n < 2 ^ msbSet n := lt_two_pow_msbSet n
    _ ≤ 2 ^ j := Nat.pow_le_pow_right (by decide) h

theorem testBit_msbSet_pred (n : Nat) (h : n ≠ 0) :
    n.testBit (msbSet n - 1) = true := by
  have hpos : 0 < 2 ^ (msbSet n - 1) := Nat.two_pow_pos _
  have h1 : 2 ^ (msbSet n - 1) ≤ n := two_pow_msbSet_pred_le n h
  have hm : msbSet n ≠ 0 := fun hh => h ((msbSet_eq_zero_iff n).mp hh)
  have h2 : n < 2 ^ (msbSet n - 1) * 2 := by
    have h3 : n < 2 ^ msbSet n := lt_two_pow_msbSet n
    have h5 : msbSet n - 1 + 1 = msbSet n := by omega
    have h4 := Nat.pow_succ 2 (msbSet n - 1)
    rw [Nat.succ_eq_add_one, h5] at h4
    omega
  have hone : n / 2 ^ (msbSet n - 1) = 1 := by
    have hle : 1 ≤ n / 2 ^ (msbSet n - 1) := (Nat.one_le_div_iff hpos).mpr h1
    have hlt : n / 2 ^ (msbSet n - 1) < 2 := by
      rw [Nat.div_lt_iff_lt_mul hpos]
      omega
    omega
  rw [Nat.testBit_to_div_mod, hone]
  decide

theorem msbSet_ge_of_testBit (n b : Nat) (h : n.testBit b = true) :
    b + 1 ≤ msbSet n := by
  by_contra hc
  have hle : msbSet n ≤ b := by omega
  rw [testBit_false_of_msbSet_le n b hle] at h
  exact Bool.noConfusion h

theorem lt_two_pow_of_high_false (z k : Nat)
    (h : ∀ j, k ≤ j → z.testBit j = false) : z < 2 ^ k := by
  have hz : z = z % 2 ^ k := by
    apply Nat.eq_of_testBit_eq
    intro i
    rw [Nat.testBit_mod_two_pow]
    by_cases hik : i < k
    · simp [hik]
    · simp [hik, h i (Nat.le_of_not_lt hik)]
  calc z = z % 2 ^ k := hz
    _ < 2 ^ k := Nat.mod_lt z (Nat.two_pow_pos k)

theorem msbSet_le_of_high_false (z k : Nat)
    (h : ∀ j, k ≤ j → z.testBit j = false) : msbSet z ≤ k :=
  (msbSet_le_iff z k).mpr (lt_two_pow_of_high_false z k h)

/-! ### Highest differing bit of two numbers, via msbSet of their xor -/

theorem testBit_eq_of_msbSet_xor_le (x y j : Nat) (h : msbSet (x ^^^ y) ≤ j) :
    x.testBit j = y.testBit j := by
  have h1 : (x ^^^ y).testBit j = false := testBit_false_of_msbSet_le _ j h
  rw [Nat.testBit_xor] at h1
  cases hx : x.testBit j <;> cases hy : y.testBit j <;> simp_all

theorem testBit_ne_at_msbSet_xor_pred (x y : Nat) (h : x ≠ y) :
    x.testBit (msbSet (x ^^^ y) - 1) ≠ y.testBit (msbSet (x ^^^ y) - 1) := by
  have hne : x ^^^ y ≠ 0 := fun hh => h (Nat.xor_eq_zero.mp hh)
  have h1 := testBit_msbSet_pred (x ^^^ y) hne
  rw [Nat.testBit_xor] at h1
  intro heq
  rw [heq] at h1
  simp at h1

theorem msbSet_xor_eq (x y k : Nat) (hne : x.testBit k ≠ y.testBit k)
    (hagree : ∀ j, k < j → x.testBit j = y.testBit j) :
    msbSet (x ^^^ y) = k + 1 := by
  have hbit : (x ^^^ y).testBit k = true := by
    rw [Nat.testBit_xor]
    cases hx : x.testBit k <;> cases hy : y.testBit k <;> simp_all
  have hge : k + 1 ≤ msbSet (x ^^^ y) := msbSet_ge_of_testBit _ k hbit
  have hle : msbSet (x ^^^ y) ≤ k + 1 := by
    apply msbSet_le_of_high_false
    intro j hj
    rw [Nat.testBit_xor, hagree j (by omega)]
    simp
  omega

/-- If `mu ≤ nu` and `nu ≠ mu`, then at the highest bit where `nu` and `mu`
differ, `nu` has a one and `mu` a zero. -/
theorem high_bit_of_le (mu nu : Nat) (hle : mu ≤ nu) (hne : nu ≠ mu) :
    nu.testBit (msbSet (nu ^^^ mu) - 1) = true ∧
      mu.testBit (msbSet (nu ^^^ mu) - 1) = false := by
  have hdiff := testBit_ne_at_msbSet_xor_pred nu mu hne
  have hs1 : msbSet (nu ^^^ mu) ≠ 0 := by
    intro hh
    exact hne (Nat.xor_eq_zero.mp ((msbSet_eq_zero_iff _).mp hh))
  have hagree : ∀ j, msbSet (nu ^^^ mu) - 1 < j → nu.testBit j = mu.testBit j := by
    intro j hj
    exact testBit_eq_of_msbSet_xor_le nu mu j (by omega)
  cases hnu : nu.testBit (msbSet (nu ^^^ mu) - 1) with
  | false =>
    cases hmu : mu.testBit (msbSet (nu ^^^ mu) - 1) with
    | false => exact absurd (hnu.trans hmu.symm) hdiff
    | true =>
      have hlt : nu < mu := Nat.lt_of_testBit _ hnu hmu hagree
      omega
  | true =>
    cases hmu : mu.testBit (msbSet (nu ^^^ mu) - 1) with
    | false => exact ⟨rfl, rfl⟩
    | true => exact absurd (hnu.trans hmu.symm) hdiff

/-- Redistribution lemma: if the popped node's priority `nu` and another
node's priority `rp` both lie in bucket `ind ≥ 1` relative to the old
minimum `mu`, then relative to the new minimum `nu` the other node's
bucket index is strictly smaller than `ind`. -/
theorem redistribute_lt (mu nu rp ind : Nat) (hmu_nu : mu ≤ nu)
    (hnu : msbSet (nu ^^^ mu) = ind) (hind : 1 ≤ ind)
    (hmu_rp : mu ≤ rp) (hrp : msbSet (rp ^^^ mu) = ind) :
    msbSet (rp ^^^ nu) < ind := by
  have hnu_ne : nu ≠ mu := by
    intro hh
    rw [hh] at hnu
    rw [Nat.xor_self] at hnu
    rw [msbSet_zero] at hnu
    omega
  have hrp_ne : rp ≠ mu := by
    intro hh
    rw [hh] at hrp
    rw [Nat.xor_self] at hrp
    rw [msbSet_zero] at hrp
    omega
  obtain ⟨hnu_bit, hmu_bit⟩ := high_bit_of_le mu nu hmu_nu hnu_ne
  obtain ⟨hrp_bit, hmu_bit2⟩ := high_bit_of_le mu rp hmu_rp hrp_ne
  rw [hnu] at hnu_bit hmu_bit
  rw [hrp] at hrp_bit hmu_bit2
  have hle : msbSet (rp ^^^ nu) ≤ ind - 1 := by
    apply msbSet_le_of_high_false
    intro j hj
    rw [Nat.testBit_xor]
    have heqj : rp.testBit j = nu.testBit j := by
      by_cases hjind : j = ind - 1
      · rw [hjind, hrp_bit, hnu_bit]
      · have hj2 : ind ≤ j := by omega
        have e1 : rp.testBit j = mu.testBit j :=
          testBit_eq_of_msbSet_xor_le rp mu j (by omega)
        have e2 : nu.testBit j = mu.testBit j :=
          testBit_eq_of_msbSet_xor_le nu mu j (by omega)
        rw [e1, e2]
    rw [heqj]
    simp
  omega

/-- Stability lemma: a node of priority `rp` lying in a bucket `j` strictly
above the drained bucket `ind ≥ 1` keeps its bucket index when the minimum
moves from `mu` to the popped priority `nu`, and its priority is strictly
above `nu`. -/
theorem bucket_stable (mu nu rp ind j : Nat) (hmu_nu : mu ≤ nu)
    (hnu : msbSet (nu ^^^ mu) = ind) (hind : 1 ≤ ind)
    (hmu_rp : mu ≤ rp) (hrp : msbSet (rp ^^^ mu) = j) (hj : ind < j) :
    msbSet (rp ^^^ nu) = j ∧ nu < rp := by
  have hrp_ne : rp ≠ mu := by
    intro hh
    rw [hh] at hrp
    rw [Nat.xor_self] at hrp
    rw [msbSet_zero] at hrp
    omega
  obtain ⟨hrp_bit, hmu_bit⟩ := high_bit_of_le mu rp hmu_rp hrp_ne
  rw [hrp] at hrp_bit hmu_bit
  have hnu_mu_eq : ∀ i, ind ≤ i → nu.testBit i = mu.testBit i := by
    intro i hi
    exact testBit_eq_of_msbSet_xor_le nu mu i (by omega)
  have hnu_bit : nu.testBit (j - 1) = false := by
    rw [hnu_mu_eq (j - 1) (by omega)]
    exact hmu_bit
  have hagree : ∀ i, j - 1 < i → rp.testBit i = nu.testBit i := by
    intro i hi
    have e1 : rp.testBit i = mu.testBit i :=
      testBit_eq_of_msbSet_xor_le rp mu i (by omega)
    have e2 : nu.testBit i = mu.testBit i := hnu_mu_eq i (by omega)
    rw [e1, e2]
  constructor
  · have hmsb : msbSet (rp ^^^ nu) = (j - 1) + 1 := by
      apply msbSet_xor_eq
      · rw [hrp_bit, hnu_bit]
        simp
      · exact hagree
    omega
  · apply Nat.lt_of_testBit (j - 1) hnu_bit hrp_bit
    intro i hi
    exact (hagree i hi).symm

/-! ### Equivalence of the portable and builtin msbSet code paths -/

theorem clz_eq (w mask : Nat) (h : mask < 2 ^ w) : clz w mask = w - msbSet mask := by
  induction w with
  | zero =>
    have h0 : mask = 0 := by
      simpa using h
    subst h0
    rw [msbSet_zero]
    rfl
  | succ w ih =>
    rw [clz]
    by_cases hb : mask.testBit w
    · have hge : w + 1 ≤ msbSet mask := msbSet_ge_of_testBit mask w hb
      have hle : msbSet mask ≤ w + 1 := (msbSet_le_iff mask (w + 1)).mpr h
      rw [if_pos hb]
      omega
    · have hlt : mask < 2 ^ w := by
        have hle : msbSet mask ≤ w := by
          apply msbSet_le_of_high_false
          intro j hj
          by_cases hjw : j = w
          · subst hjw
            exact Bool.eq_false_iff.mpr hb
          · apply Nat.testBit_lt_two_pow
            calc mask < 2 ^ (w + 1) := h
              _ ≤ 2 ^ j := Nat.pow_le_pow_right (by decide) (by omega)
        exact (msbSet_le_iff mask w).mp hle
      have hle2 : msbSet mask ≤ w := (msbSet_le_iff mask w).mpr hlt
      rw [if_neg hb, ih hlt]
      omega

/-! ### Facts about scanMin -/

theorem scanMin_eq_none_iff (l : List (RadixHeapNode V)) :
    scanMin l = none ↔ l = [] := by
  cases l with
  | nil => simp [scanMin]
  | cons n ns =>
    simp only [scanMin]
    cases hs : scanMin ns with
    | none => simp
    | some p =>
      obtain ⟨m, rest⟩ := p
      by_cases hlt : m.priority < n.priority <;> simp [hlt]

theorem scanMin_perm (l : List (RadixHeapNode V)) (q : RadixHeapNode V)
    (rest : List (RadixHeapNode V)) (h : scanMin l = some (q, rest)) :
    l.Perm (q :: rest) := by
  induction l generalizing q rest with
  | nil => simp [scanMin] at h
  | cons n ns ih =>
    cases hs : scanMin ns with
    | none =>
      have hns : ns = [] := (scanMin_eq_none_iff ns).mp hs
      rw [scanMin, hs] at h
      simp only [Option.some.injEq, Prod.mk.injEq] at h
      obtain ⟨h1, h2⟩ := h
      subst h1
      subst h2
      subst hns
      exact List.Perm.refl _
    | some p =>
      obtain ⟨m, r⟩ := p
      rw [scanMin, hs] at h
      dsimp only at h
      by_cases hlt : m.priority < n.priority
      · rw [if_pos hlt] at h
        simp only [Option.some.injEq, Prod.mk.injEq] at h
        obtain ⟨h1, h2⟩ := h
        rw [← h1, ← h2]
        exact List.Perm.trans (List.Perm.cons n (ih m r hs)) (List.Perm.swap m n r)
      · rw [if_neg hlt] at h
        simp only [Option.some.injEq, Prod.mk.injEq] at h
        obtain ⟨h1, h2⟩ := h
        rw [← h1, ← h2]

theorem scanMin_min (l : List (RadixHeapNode V)) (q : RadixHeapNode V)
    (rest : List (RadixHeapNode V)) (h : scanMin l = some (q, rest)) :
    ∀ r ∈ l, q.priority ≤ r.priority := by
  induction l generalizing q rest with
  | nil => simp [scanMin] at h
  | cons n ns ih =>
    cases hs : scanMin ns with
    | none =>
      have hns : ns = [] := (scanMin_eq_none_iff ns).mp hs
      rw [scanMin, hs] at h
      simp only [Option.some.injEq, Prod.mk.injEq] at h
      obtain ⟨h1, h2⟩ := h
      subst h1
      subst hns
      intro r hr
      simp at hr
      subst hr
      exact Nat.le_refl _
    | some p =>
      obtain ⟨m, r0⟩ := p
      rw [scanMin, hs] at h
      dsimp only at h
      by_cases hlt : m.priority < n.priority
      · rw [if_pos hlt] at h
        simp only [Option.some.injEq, Prod.mk.injEq] at h
        obtain ⟨h1, h2⟩ := h
        rw [← h1]
        intro r hr
        cases List.mem_cons.mp hr with
        | inl he =>
          subst he
          exact Nat.le_of_lt hlt
        | inr hm => exact ih m r0 hs r hm
      · rw [if_neg hlt] at h
        simp only [Option.some.injEq, Prod.mk.injEq] at h
        obtain ⟨h1, h2⟩ := h
        rw [← h1]
        intro r hr
        cases List.mem_cons.mp hr with
        | inl he =>
          subst he
          exact Nat.le_refl _
        | inr hm =>
          have hmle := ih m r0 hs r hm
          omega

theorem scanMin_isSome (l : List (RadixHeapNode V)) (hne : l ≠ []) :
    ∃ q rest, scanMin l = some (q, rest) := by
  cases hs : scanMin l with
  | none => exact absurd ((scanMin_eq_none_iff l).mp hs) hne
  | some p =>
    obtain ⟨q, rest⟩ := p
    exact ⟨q, rest, rfl⟩

/-! ### Multiset bookkeeping for bucket updates -/

theorem ms_add_singleton {A : Type} (s : Multiset A) (a : A) : s + {a} = a ::ₘ s := by
  rw [add_comm, Multiset.singleton_add]

theorem sum_cons_bucket {A : Type} (f : Nat → List A) (i n : Nat) (hi : i < n) (a : A) :
    (∑ j ∈ Finset.range n, (↑(if j = i then a :: f i else f j) : Multiset A))
      = a ::ₘ ∑ j ∈ Finset.range n, (↑(f j) : Multiset A) := by
  have hpt : ∀ j, (↑(if j = i then a :: f i else f j) : Multiset A)
      = (↑(f j) : Multiset A) + (if j = i then {a} else 0) := by
    intro j
    by_cases hj : j = i
    · subst hj
      rw [if_pos rfl, if_pos rfl, ← Multiset.cons_coe, ← ms_add_singleton]
    · rw [if_neg hj, if_neg hj, add_zero]
  rw [Finset.sum_congr rfl (fun j _ => hpt j), Finset.sum_add_distrib,
    Finset.sum_ite_eq' (Finset.range n) i (fun _ => ({a} : Multiset A)),
    if_pos (Finset.mem_range.mpr hi), ms_add_singleton]

theorem sum_nil_bucket {A : Type} (f : Nat → List A) (i n : Nat) (hi : i < n) :
    (∑ j ∈ Finset.range n, (↑(f j) : Multiset A))
      = ↑(f i) + ∑ j ∈ Finset.range n, (↑(if j = i then [] else f j) : Multiset A) := by
  have hpt : ∀ j, (↑(f j) : Multiset A)
      = (↑(if j = i then ([] : List A) else f j) : Multiset A)
          + (if j = i then (↑(f i) : Multiset A) else 0) := by
    intro j
    by_cases hj : j = i
    · subst hj
      rw [if_pos rfl, if_pos rfl, Multiset.coe_nil, zero_add]
    · rw [if_neg hj, if_neg hj, add_zero]
  rw [Finset.sum_congr rfl (fun j _ => hpt j), Finset.sum_add_distrib,
    Finset.sum_ite_eq' (Finset.range n) i (fun _ => (↑(f i) : Multiset A)),
    if_pos (Finset.mem_range.mpr hi), add_comm]

/-! ### The heap invariant -/


theorem buckets_high_empty (h : RadixHeap V B) (hB : InvB h) (j : Nat) (hj : B < j) :
    h.m_buckets j = [] := by
  cases hb : h.m_buckets j with
  | nil => rfl
  | cons n ns =>
    have hn : n ∈ h.m_buckets j := by
      rw [hb]
      exact List.mem_cons_self n ns
    have he := hB.bucket_eq j n hn
    have hxor : n.priority ^^^ h.m_minimum < 2 ^ B :=
      Nat.xor_lt_two_pow (hB.prio_lt j n hn) hB.min_lt
    have hle : msbSet (n.priority ^^^ h.m_minimum) ≤ B := (msbSet_le_iff _ B).mpr hxor
    omega

/-! ### Field equations for insert and push -/

theorem insert_m_minimum (h : RadixHeap V B) (node : RadixHeapNode V) :
    (h.insert node).m_minimum = h.m_minimum := rfl

theorem insert_m_size (h : RadixHeap V B) (node : RadixHeapNode V) :
    (h.insert node).m_size = h.m_size := rfl

theorem insert_m_buckets (h : RadixHeap V B) (node : RadixHeapNode V) :
    (h.insert node).m_buckets = fun j =>
      if j = msbSet (node.priority ^^^ h.m_minimum)
      then node :: h.m_buckets (msbSet (node.priority ^^^ h.m_minimum))
      else h.m_buckets j := rfl

theorem insert_m_bucketMask (h : RadixHeap V B) (node : RadixHeapNode V) :
    (h.insert node).m_bucketMask =
      if msbSet (node.priority ^^^ h.m_minimum) ≠ 0
      then h.m_bucketMask ||| 2 ^ (B - msbSet (node.priority ^^^ h.m_minimum))
      else h.m_bucketMask := rfl

theorem insert_nodes (h : RadixHeap V B) (node : RadixHeapNode V)
    (hlt : node.priority < 2 ^ B) (hmin : h.m_minimum < 2 ^ B) :
    (h.insert node).nodes = node ::ₘ h.nodes := by
  have hx : node.priority ^^^ h.m_minimum < 2 ^ B := Nat.xor_lt_two_pow hlt hmin
  have hind : msbSet (node.priority ^^^ h.m_minimum) < B + 1 := by
    have hle := (msbSet_le_iff (node.priority ^^^ h.m_minimum) B).mpr hx
    omega
  unfold RadixHeap.nodes
  simp only [insert_m_buckets]
  exact sum_cons_bucket h.m_buckets _ (B + 1) hind node

theorem insert_invB (h : RadixHeap V B) (node : RadixHeapNode V) (hB : InvB h)
    (hge : h.m_minimum ≤ node.priority) (hlt : node.priority < 2 ^ B) :
    InvB (h.insert node) := by
  have hxor : node.priority ^^^ h.m_minimum < 2 ^ B := Nat.xor_lt_two_pow hlt hB.min_lt
  have hindB : msbSet (node.priority ^^^ h.m_minimum) ≤ B := (msbSet_le_iff _ B).mpr hxor
  constructor
  case min_lt => exact hB.min_lt
  case prio_lt =>
    intro j n hn
    simp only [insert_m_buckets] at hn
    by_cases hj : j = msbSet (node.priority ^^^ h.m_minimum)
    · rw [if_pos hj] at hn
      cases List.mem_cons.mp hn with
      | inl he => rw [he]; exact hlt
      | inr hm => exact hB.prio_lt _ n hm
    · rw [if_neg hj] at hn
      exact hB.prio_lt j n hn
  case prio_ge =>
    intro j n hn
    simp only [insert_m_buckets] at hn
    rw [insert_m_minimum]
    by_cases hj : j = msbSet (node.priority ^^^ h.m_minimum)
    · rw [if_pos hj] at hn
      cases List.mem_cons.mp hn with
      | inl he => rw [he]; exact hge
      | inr hm => exact hB.prio_ge _ n hm
    · rw [if_neg hj] at hn
      exact hB.prio_ge j n hn
  case bucket_eq =>
    intro j n hn
    simp only [insert_m_buckets] at hn
    rw [insert_m_minimum]
    by_cases hj : j = msbSet (node.priority ^^^ h.m_minimum)
    · rw [if_pos hj] at hn
      cases List.mem_cons.mp hn with
      | inl he => rw [hj, he]
      | inr hm => rw [hj]; exact hB.bucket_eq _ n hm
    · rw [if_neg hj] at hn
      exact hB.bucket_eq j n hn
  case mask_iff =>
    intro i h1 h2
    simp only [insert_m_buckets, insert_m_bucketMask]
    by_cases hind0 : msbSet (node.priority ^^^ h.m_minimum) = 0
    · rw [if_neg (by simp [hind0])]
      have hi0 : i ≠ msbSet (node.priority ^^^ h.m_minimum) := by omega
      rw [if_neg hi0]
      exact hB.mask_iff i h1 h2
    · rw [if_pos hind0]
      rw [Nat.testBit_or]
      by_cases hi : i = msbSet (node.priority ^^^ h.m_minimum)
      · rw [if_pos hi, hi, Nat.testBit_two_pow_self]
        simp only [Bool.or_true, true_iff]
        exact List.cons_ne_nil _ _
      · rw [if_neg hi]
        have hne : B - msbSet (node.priority ^^^ h.m_minimum) ≠ B - i := by omega
        rw [Nat.testBit_two_pow_of_ne hne]
        simp only [Bool.or_false]
        exact hB.mask_iff i h1 h2
  case mask_lt =>
    simp only [insert_m_bucketMask]
    by_cases hind0 : msbSet (node.priority ^^^ h.m_minimum) = 0
    · rw [if_neg (by simp [hind0])]
      exact hB.mask_lt
    · rw [if_pos hind0]
      apply Nat.or_lt_two_pow hB.mask_lt
      apply Nat.pow_lt_pow_right (by decide)
      omega

theorem foldl_insert_spec (l : List (RadixHeapNode V)) (h : RadixHeap V B) (hB : InvB h)
    (hl : ∀ r ∈ l, h.m_minimum ≤ r.priority ∧ r.priority < 2 ^ B) :
    InvB (l.foldl RadixHeap.insert h) ∧
      (l.foldl RadixHeap.insert h).m_minimum = h.m_minimum ∧
      (l.foldl RadixHeap.insert h).m_size = h.m_size ∧
      (l.foldl RadixHeap.insert h).nodes = ↑l + h.nodes := by
  induction l generalizing h with
  | nil =>
    refine ⟨hB, rfl, rfl, ?_⟩
    rw [List.foldl_nil, Multiset.coe_nil, zero_add]
  | cons a as ih =>
    have ha := hl a (List.mem_cons_self a as)
    have hB2 : InvB (h.insert a) := insert_invB h a hB ha.1 ha.2
    have hmin2 : (h.insert a).m_minimum = h.m_minimum := insert_m_minimum h a
    have hl2 : ∀ r ∈ as, (h.insert a).m_minimum ≤ r.priority ∧ r.priority < 2 ^ B := by
      intro r hr
      rw [hmin2]
      exact hl r (List.mem_cons_of_mem a hr)
    obtain ⟨c1, c2, c3, c4⟩ := ih (h.insert a) hB2 hl2
    rw [List.foldl_cons]
    refine ⟨c1, ?_, ?_, ?_⟩
    · rw [c2, hmin2]
    · rw [c3, insert_m_size]
    · rw [c4, insert_nodes h a ha.2 hB.min_lt, ← Multiset.cons_coe,
        Multiset.cons_add, Multiset.add_cons]

/-! ### Equation lemmas for popNode -/

theorem popNode_bucket0 (h : RadixHeap V B) (n : RadixHeapNode V)
    (rest : List (RadixHeapNode V)) (hb : h.m_buckets 0 = n :: rest) :
    h.popNode = some (n, { h with
      m_size := h.m_size - 1
      m_buckets := fun j => if j = 0 then rest else h.m_buckets j }) := by
  unfold RadixHeap.popNode
  rw [hb]

theorem popNode_slowEq (h : RadixHeap V B) (hb : h.m_buckets 0 = [])
    (minNode : RadixHeapNode V) (rest : List (RadixHeapNode V))
    (hscan : scanMin (h.m_buckets (B + 1 - msbSet h.m_bucketMask))
      = some (minNode, rest)) :
    h.popNode = some (minNode, rest.foldl RadixHeap.insert
      { m_size := h.m_size - 1
        m_minimum := minNode.priority
        m_bucketMask :=
          if B + 1 - msbSet h.m_bucketMask ≠ 0
          then h.m_bucketMask ^^^ 2 ^ (B - (B + 1 - msbSet h.m_bucketMask))
          else h.m_bucketMask
        m_buckets := fun j =>
          if j = B + 1 - msbSet h.m_bucketMask then [] else h.m_buckets j }) := by
  unfold RadixHeap.popNode
  rw [hb]
  dsimp only
  rw [hscan]


/-! ### The master lemma about popNode on an invariant-respecting state -/

theorem popNode_spec (h : RadixHeap V B) (hInv : Inv h) (hsz : h.m_size ≠ 0) :
    ∃ q h2, h.popNode = some (q, h2) ∧ Inv h2 ∧
      h2.m_size = h.m_size - 1 ∧
      h2.m_minimum = q.priority ∧
      h.m_minimum ≤ q.priority ∧
      q ::ₘ h2.nodes = h.nodes ∧
      (∀ r ∈ h.nodes, q.priority ≤ r.priority) := by
  obtain ⟨hB, hsize⟩ := hInv
  cases hb : h.m_buckets 0 with
  | cons n rest =>
    have hn0 : n ∈ h.m_buckets 0 := by
      rw [hb]
      exact List.mem_cons_self n rest
    have hnp : n.priority = h.m_minimum := by
      have he := hB.bucket_eq 0 n hn0
      exact Nat.xor_eq_zero.mp ((msbSet_eq_zero_iff _).mp he.symm)
    have hpop : h.popNode = some (n, fastState h rest) := popNode_bucket0 h n rest hb
    have hnodes : h.nodes = n ::ₘ (fastState h rest).nodes := by
      have hkey := sum_cons_bucket
        (fun j => if j = 0 then rest else h.m_buckets j) 0 (B + 1) (by omega) n
      have hcong : ∀ j ∈ Finset.range (B + 1),
          (↑(h.m_buckets j) : Multiset (RadixHeapNode V))
            = ↑(if j = 0 then n :: (if (0 : Nat) = 0 then rest else h.m_buckets 0)
                else (if j = 0 then rest else h.m_buckets j)) := by
        intro j _
        by_cases hj : j = 0
        · subst hj
          simp [hb]
        · rw [if_neg hj, if_neg hj]
      have hgoal : h.nodes = n ::ₘ (∑ j ∈ Finset.range (B + 1),
          (↑(if j = 0 then rest else h.m_buckets j) : Multiset (RadixHeapNode V))) := by
        unfold RadixHeap.nodes
        rw [Finset.sum_congr rfl hcong]
        exact hkey
      exact hgoal
    have hB2 : InvB (fastState h rest) := by
      constructor
      case min_lt => exact hB.min_lt
      case prio_lt =>
        intro j m hm
        simp only [fastState] at hm
        by_cases hj : j = 0
        · rw [if_pos hj] at hm
          apply hB.prio_lt 0 m
          rw [hb]
          exact List.mem_cons_of_mem n hm
        · rw [if_neg hj] at hm
          exact hB.prio_lt j m hm
      case prio_ge =>
        intro j m hm
        simp only [fastState] at hm ⊢
        by_cases hj : j = 0
        · rw [if_pos hj] at hm
          apply hB.prio_ge 0 m
          rw [hb]
          exact List.mem_cons_of_mem n hm
        · rw [if_neg hj] at hm
          exact hB.prio_ge j m hm
      case bucket_eq =>
        intro j m hm
        simp only [fastState] at hm ⊢
        by_cases hj : j = 0
        · rw [if_pos hj] at hm
          rw [hj]
          apply hB.bucket_eq 0 m
          rw [hb]
          exact List.mem_cons_of_mem n hm
        · rw [if_neg hj] at hm
          exact hB.bucket_eq j m hm
      case mask_iff =>
        intro i h1 h2
        simp only [fastState]
        rw [if_neg (by omega : ¬ i = 0)]
        exact hB.mask_iff i h1 h2
      case mask_lt => exact hB.mask_lt
    refine ⟨n, fastState h rest, hpop, ⟨hB2, ?_⟩, rfl, hnp.symm,
      Nat.le_of_eq hnp.symm, hnodes.symm, ?_⟩
    · have hcard : Multiset.card h.nodes = Multiset.card (fastState h rest).nodes + 1 := by
        rw [hnodes, Multiset.card_cons]
      show h.m_size - 1 = Multiset.card (fastState h rest).nodes
      omega
    · intro r hr
      have hr2 : r ∈ ∑ j ∈ Finset.range (B + 1),
          (↑(h.m_buckets j) : Multiset (RadixHeapNode V)) := hr
      obtain ⟨j, hjr, hrj⟩ := (Finset.mem_sum (Finset.range (B + 1)) r).mp hr2
      rw [hnp]
      exact hB.prio_ge j r (Multiset.mem_coe.mp hrj)
  | nil =>
    have hex : ∃ j, j ≤ B ∧ h.m_buckets j ≠ [] := by
      have hne : h.nodes ≠ 0 := by
        intro h0
        rw [h0] at hsize
        simp at hsize
        exact hsz hsize
      obtain ⟨x, hx⟩ := Multiset.exists_mem_of_ne_zero hne
      have hx2 : x ∈ ∑ j ∈ Finset.range (B + 1),
          (↑(h.m_buckets j) : Multiset (RadixHeapNode V)) := hx
      obtain ⟨j, hjr, hxj⟩ := (Finset.mem_sum (Finset.range (B + 1)) x).mp hx2
      refine ⟨j, by have := Finset.mem_range.mp hjr; omega, ?_⟩
      intro hempty
      rw [hempty] at hxj
      simp at hxj
    obtain ⟨j0, hj0B, hj0ne⟩ := hex
    have hj0pos : j0 ≠ 0 := by
      intro hh
      rw [hh, hb] at hj0ne
      exact hj0ne rfl
    have hmaskne : h.m_bucketMask ≠ 0 := by
      intro h0
      have hbit := (hB.mask_iff j0 (by omega) hj0B).mpr hj0ne
      rw [h0, Nat.zero_testBit] at hbit
      exact Bool.noConfusion hbit
    have hs0 : msbSet h.m_bucketMask ≠ 0 :=
      fun hh => hmaskne ((msbSet_eq_zero_iff _).mp hh)
    have hsB : msbSet h.m_bucketMask ≤ B := (msbSet_le_iff _ B).mpr hB.mask_lt
    set ind := B + 1 - msbSet h.m_bucketMask with hinddef
    have hind1 : 1 ≤ ind := by omega
    have hindB : ind ≤ B := by omega
    have hBind : B - ind = msbSet h.m_bucketMask - 1 := by omega
    have hbit : h.m_bucketMask.testBit (B - ind) = true := by
      rw [hBind]
      exact testBit_msbSet_pred h.m_bucketMask hmaskne
    have hne_ind : h.m_buckets ind ≠ [] := (hB.mask_iff ind hind1 hindB).mp hbit
    obtain ⟨q, rest, hscan⟩ := scanMin_isSome (h.m_buckets ind) hne_ind
    have hlow : ∀ i, i < ind → h.m_buckets i = [] := by
      intro i hi
      cases Nat.eq_zero_or_pos i with
      | inl h0 =>
        rw [h0]
        exact hb
      | inr hpos =>
        have hige : msbSet h.m_bucketMask ≤ B - i := by omega
        have hbitf : h.m_bucketMask.testBit (B - i) = false :=
          testBit_false_of_msbSet_le _ _ hige
        by_contra hcon
        have hcc := (hB.mask_iff i (by omega) (by omega)).mpr hcon
        rw [hbitf] at hcc
        exact Bool.noConfusion hcc
    have hperm := scanMin_perm _ q rest hscan
    have hqmem : q ∈ h.m_buckets ind := hperm.mem_iff.mpr (List.mem_cons_self q rest)
    have hq_lt : q.priority < 2 ^ B := hB.prio_lt ind q hqmem
    have hq_ge : h.m_minimum ≤ q.priority := hB.prio_ge ind q hqmem
    have hq_eq : ind = msbSet (q.priority ^^^ h.m_minimum) := hB.bucket_eq ind q hqmem
    have hrest_mem : ∀ r ∈ rest, r ∈ h.m_buckets ind :=
      fun r hr => hperm.mem_iff.mpr (List.mem_cons_of_mem q hr)
    have hrest_ge : ∀ r ∈ rest, q.priority ≤ r.priority :=
      fun r hr => scanMin_min _ q rest hscan r (hrest_mem r hr)
    have hmin_all : ∀ j, ∀ m ∈ h.m_buckets j, j ≠ ind → ind < j ∧ j ≤ B := by
      intro j m hm hj
      have hjB : j ≤ B := by
        by_contra hcon
        rw [buckets_high_empty h hB j (by omega)] at hm
        simp at hm
      refine ⟨?_, hjB⟩
      rcases Nat.lt_trichotomy j ind with hlt | heq | hgt
      · rw [hlow j hlt] at hm
        simp at hm
      · exact absurd heq hj
      · exact hgt
    have hstable : ∀ j, ∀ m ∈ h.m_buckets j, j ≠ ind →
        msbSet (m.priority ^^^ q.priority) = j ∧ q.priority < m.priority := by
      intro j m hm hj
      obtain ⟨hgt, hjB⟩ := hmin_all j m hm hj
      exact bucket_stable h.m_minimum q.priority m.priority ind j hq_ge hq_eq.symm hind1
        (hB.prio_ge j m hm) (hB.bucket_eq j m hm).symm hgt
    have hpop0 := popNode_slowEq h hb q rest (by rw [← hinddef]; exact hscan)
    rw [← hinddef, if_pos (by omega : ind ≠ 0)] at hpop0
    have hpop : h.popNode = some (q, rest.foldl RadixHeap.insert (midState h q ind)) := hpop0
    have hB2 : InvB (midState h q ind) := by
      constructor
      case min_lt => exact hq_lt
      case prio_lt =>
        intro j m hm
        simp only [midState] at hm
        by_cases hj : j = ind
        · rw [if_pos hj] at hm
          simp at hm
        · rw [if_neg hj] at hm
          exact hB.prio_lt j m hm
      case prio_ge =>
        intro j m hm
        simp only [midState] at hm ⊢
        by_cases hj : j = ind
        · rw [if_pos hj] at hm
          simp at hm
        · rw [if_neg hj] at hm
          exact Nat.le_of_lt (hstable j m hm hj).2
      case bucket_eq =>
        intro j m hm
        simp only [midState] at hm ⊢
        by_cases hj : j = ind
        · rw [if_pos hj] at hm
          simp at hm
        · rw [if_neg hj] at hm
          exact (hstable j m hm hj).1.symm
      case mask_iff =>
        intro i h1 h2
        simp only [midState]
        rw [Nat.testBit_xor]
        by_cases hi : i = ind
        · rw [if_pos hi, hi, Nat.testBit_two_pow_self, hbit]
          simp
        · rw [if_neg hi]
          have hne2 : B - ind ≠ B - i := by omega
          rw [Nat.testBit_two_pow_of_ne hne2]
          simp only [Bool.xor_false]
          exact hB.mask_iff i h1 h2
      case mask_lt =>
        show h.m_bucketMask ^^^ 2 ^ (B - ind) < 2 ^ B
        apply Nat.xor_lt_two_pow hB.mask_lt
        apply Nat.pow_lt_pow_right (by decide)
        omega
    have hnodes_split : h.nodes = ↑(h.m_buckets ind) + (midState h q ind).nodes := by
      have hgoal : h.nodes = ↑(h.m_buckets ind)
          + (∑ j ∈ Finset.range (B + 1),
              (↑(if j = ind then [] else h.m_buckets j) : Multiset (RadixHeapNode V))) := by
        unfold RadixHeap.nodes
        exact sum_nil_bucket h.m_buckets ind (B + 1) (by omega)
      exact hgoal
    have hcoe : (↑(h.m_buckets ind) : Multiset (RadixHeapNode V)) = q ::ₘ ↑rest := by
      rw [Multiset.coe_eq_coe.mpr hperm, ← Multiset.cons_coe]
    obtain ⟨c1, c2, c3, c4⟩ := foldl_insert_spec rest (midState h q ind) hB2 (by
      intro r hr
      exact ⟨hrest_ge r hr, hB.prio_lt ind r (hrest_mem r hr)⟩)
    have hnodes_final : q ::ₘ (rest.foldl RadixHeap.insert (midState h q ind)).nodes
        = h.nodes := by
      rw [c4, hnodes_split, hcoe, Multiset.cons_add]
    have hglobal : ∀ r ∈ h.nodes, q.priority ≤ r.priority := by
      intro r hr
      have hr2 : r ∈ ∑ j ∈ Finset.range (B + 1),
          (↑(h.m_buckets j) : Multiset (RadixHeapNode V)) := hr
      obtain ⟨j, hjr, hrj⟩ := (Finset.mem_sum (Finset.range (B + 1)) r).mp hr2
      have hrl : r ∈ h.m_buckets j := Multiset.mem_coe.mp hrj
      by_cases hj : j = ind
      · subst hj
        exact scanMin_min _ q rest hscan r hrl
      · exact Nat.le_of_lt (hstable j r hrl hj).2
    refine ⟨q, rest.foldl RadixHeap.insert (midState h q ind), hpop, ⟨c1, ?_⟩, ?_, ?_,
      hq_ge, hnodes_final, hglobal⟩
    · have hc : Multiset.card h.nodes
          = Multiset.card ((rest.foldl RadixHeap.insert (midState h q ind)).nodes) + 1 := by
        rw [← hnodes_final, Multiset.card_cons]
      rw [c3]
      show h.m_size - 1 = _
      omega
    · rw [c3]
      rfl
    · rw [c2]
      rfl

/-! ### Invariance under construction, push, runOps, drain -/

theorem new_inv : Inv (RadixHeap.new V B) := by
  constructor
  · constructor
    case min_lt => exact Nat.two_pow_pos B
    case prio_lt =>
      intro j n hn
      simp [RadixHeap.new] at hn
    case prio_ge =>
      intro j n hn
      simp [RadixHeap.new] at hn
    case bucket_eq =>
      intro j n hn
      simp [RadixHeap.new] at hn
    case mask_iff =>
      intro i h1 h2
      simp [RadixHeap.new, Nat.zero_testBit]
    case mask_lt => exact Nat.two_pow_pos B
  · simp [RadixHeap.new, RadixHeap.nodes]

theorem push_spec (h : RadixHeap V B) (v : V) (p : Nat) (hInv : Inv h)
    (hge : h.m_minimum ≤ p) (hlt : p < 2 ^ B) :
    Inv (h.push v p).1 ∧ (h.push v p).1.m_minimum = h.m_minimum ∧
      (h.push v p).1.m_size = h.m_size + 1 ∧
      (h.push v p).1.nodes = (⟨v, p⟩ : RadixHeapNode V) ::ₘ h.nodes := by
  obtain ⟨hB, hsize⟩ := hInv
  have hB1 : InvB ({ h with m_size := h.m_size + 1 } : RadixHeap V B) :=
    ⟨hB.min_lt, hB.prio_lt, hB.prio_ge, hB.bucket_eq, hB.mask_iff, hB.mask_lt⟩
  have hins := insert_invB ({ h with m_size := h.m_size + 1 } : RadixHeap V B)
    ⟨v, p⟩ hB1 hge hlt
  have hn := insert_nodes ({ h with m_size := h.m_size + 1 } : RadixHeap V B)
    ⟨v, p⟩ hlt hB.min_lt
  have hn2 : (h.push v p).1.nodes = (⟨v, p⟩ : RadixHeapNode V) ::ₘ h.nodes := hn
  refine ⟨⟨hins, ?_⟩, rfl, rfl, hn2⟩
  show h.m_size + 1 = Multiset.card (h.push v p).1.nodes
  rw [hn2, Multiset.card_cons]
  omega


theorem runOps_spec (ops : List (Op V)) (h : RadixHeap V B) (hInv : Inv h)
    (hf : RadixHeap V B) (qs : List (RadixHeapNode V))
    (hrun : runOps h ops = some (hf, qs)) :
    Inv hf ∧ h.m_minimum ≤ hf.m_minimum ∧
      List.Chain (fun a b => a ≤ b) h.m_minimum (qs.map (fun n => n.priority)) ∧
      hf.m_size + qs.length = h.m_size + countPushes ops ∧
      qs.length = countPops ops := by
  induction ops generalizing h hf qs with
  | nil =>
    rw [runOps] at hrun
    simp only [Option.some.injEq, Prod.mk.injEq] at hrun
    obtain ⟨h1, h2⟩ := hrun
    subst h1
    subst h2
    exact ⟨hInv, Nat.le_refl _, List.Chain.nil, by simp [countPushes], by simp [countPops]⟩
  | cons op ops ih =>
    cases op with
    | push v p =>
      rw [runOps] at hrun
      by_cases hc : h.m_minimum ≤ p ∧ p < 2 ^ B
      · rw [if_pos hc] at hrun
        obtain ⟨hInv2, hmin2, hsz2, _⟩ := push_spec h v p hInv hc.1 hc.2
        obtain ⟨c1, c2, c3, c4, c5⟩ := ih (h.push v p).1 hInv2 hf qs hrun
        refine ⟨c1, ?_, ?_, ?_, ?_⟩
        · rw [← hmin2]
          exact c2
        · rw [← hmin2]
          exact c3
        · rw [countPushes]
          omega
        · rw [countPops]
          exact c5
      · rw [if_neg hc] at hrun
        exact Option.noConfusion hrun
    | pop =>
      rw [runOps] at hrun
      by_cases hc : h.m_size ≠ 0
      · rw [if_pos hc] at hrun
        obtain ⟨q, h2, hpop, hInv2, hs, hm2, hge, hcons, hmin⟩ := popNode_spec h hInv hc
        rw [hpop] at hrun
        dsimp only at hrun
        cases hr2 : runOps h2 ops with
        | none =>
          rw [hr2] at hrun
          exact Option.noConfusion hrun
        | some p2 =>
          obtain ⟨hf2, qs2⟩ := p2
          rw [hr2] at hrun
          dsimp only at hrun
          simp only [Option.some.injEq, Prod.mk.injEq] at hrun
          obtain ⟨he1, he2⟩ := hrun
          obtain ⟨c1, c2, c3, c4, c5⟩ := ih h2 hInv2 hf2 qs2 hr2
          rw [← he1, ← he2]
          refine ⟨c1, ?_, ?_, ?_, ?_⟩
          · calc h.m_minimum ≤ q.priority := hge
              _ = h2.m_minimum := hm2.symm
              _ ≤ hf2.m_minimum := c2
          · rw [List.map_cons]
            apply List.Chain.cons hge
            rw [← hm2]
            exact c3
          · rw [countPushes]
            simp only [List.length_cons]
            omega
          · rw [countPops]
            simp only [List.length_cons]
            omega
      · rw [if_neg hc] at hrun
        exact Option.noConfusion hrun

theorem drain_spec (fuel : Nat) (h : RadixHeap V B) (hInv : Inv h)
    (hfuel : h.m_size = fuel) :
    (↑(drain h fuel) : Multiset (RadixHeapNode V)) = h.nodes ∧
      List.Chain (fun a b => a ≤ b) h.m_minimum
        ((drain h fuel).map (fun n => n.priority)) := by
  induction fuel generalizing h with
  | zero =>
    have hn : h.nodes = 0 := by
      obtain ⟨hB, hsize⟩ := hInv
      have hc : Multiset.card h.nodes = 0 := by omega
      exact Multiset.card_eq_zero.mp hc
    rw [drain]
    exact ⟨by rw [Multiset.coe_nil, hn], List.Chain.nil⟩
  | succ fuel ih =>
    obtain ⟨q, h2, hpop, hInv2, hs, hm2, hge, hcons, hmin⟩ :=
      popNode_spec h hInv (by omega)
    rw [drain, hpop]
    obtain ⟨c1, c2⟩ := ih h2 hInv2 (by omega)
    constructor
    · rw [← Multiset.cons_coe, c1]
      exact hcons
    · rw [List.map_cons]
      apply List.Chain.cons hge
      rw [← hm2]
      exact c2

theorem pushAll_spec (items : List (V × Nat)) (h : RadixHeap V B) (hInv : Inv h)
    (hp : ∀ x ∈ items, h.m_minimum ≤ x.2 ∧ x.2 < 2 ^ B) :
    Inv (pushAll h items) ∧ (pushAll h items).m_minimum = h.m_minimum ∧
      (pushAll h items).m_size = h.m_size + items.length ∧
      (pushAll h items).nodes
        = ↑(items.map (fun x => (⟨x.1, x.2⟩ : RadixHeapNode V))) + h.nodes := by
  induction items generalizing h with
  | nil =>
    refine ⟨hInv, rfl, rfl, ?_⟩
    rw [pushAll, List.foldl_nil, List.map_nil, Multiset.coe_nil, zero_add]
  | cons a as ih =>
    have ha := hp a (List.mem_cons_self a as)
    obtain ⟨hInv2, hmin2, hsz2, hn2⟩ := push_spec h a.1 a.2 hInv ha.1 ha.2
    have hp2 : ∀ x ∈ as, (h.push a.1 a.2).1.m_minimum ≤ x.2 ∧ x.2 < 2 ^ B := by
      intro x hx
      rw [hmin2]
      exact hp x (List.mem_cons_of_mem a hx)
    obtain ⟨c1, c2, c3, c4⟩ := ih (h.push a.1 a.2).1 hInv2 hp2
    have hfold : pushAll h (a :: as) = pushAll (h.push a.1 a.2).1 as := rfl
    rw [hfold]
    refine ⟨c1, ?_, ?_, ?_⟩
    · rw [c2, hmin2]
    · rw [c3, hsz2, List.length_cons]
      omega
    · rw [c4, hn2, List.map_cons, ← Multiset.cons_coe,
        Multiset.cons_add, Multiset.add_cons]


theorem reachable_inv (h : RadixHeap V B) (hr : Reachable h) : Inv h := by
  induction hr with
  | init => exact new_inv
  | push h v p hr hge hlt ih => exact (push_spec h v p ih hge hlt).1
  | pop h h2 q hr hsz hpop ih =>
    obtain ⟨q2, h3, hpop2, hInv2, _⟩ := popNode_spec h ih hsz
    rw [hpop] at hpop2
    simp only [Option.some.injEq, Prod.mk.injEq] at hpop2
    obtain ⟨he1, he2⟩ := hpop2
    rw [he2]
    exact hInv2

theorem chain_le_sorted (a : Nat) (l : List Nat)
    (h : List.Chain (fun x y => x ≤ y) a l) :
    List.Sorted (fun x y => x ≤ y) l := by
  have hp := List.chain_iff_pairwise.mp h
  exact (List.pairwise_cons.mp hp).2

theorem new_nodes : (RadixHeap.new V B).nodes = 0 := by
  simp [RadixHeap.new, RadixHeap.nodes]

/-- On an invariant state with empty bucket 0 and nonzero size, the bucket
index computed by the slow path of pop, `BITS + 1 - msbSet(bucketMask)`,
denotes the lowest-indexed non-empty bucket. -/
theorem lowest_bucket_facts (h : RadixHeap V B) (hInv : Inv h) (hsz : h.m_size ≠ 0)
    (hb : h.m_buckets 0 = []) :
    h.m_bucketMask ≠ 0 ∧ 1 ≤ B + 1 - msbSet h.m_bucketMask ∧
      B + 1 - msbSet h.m_bucketMask ≤ B ∧
      h.m_buckets (B + 1 - msbSet h.m_bucketMask) ≠ [] ∧
      (∀ i, i < B + 1 - msbSet h.m_bucketMask → h.m_buckets i = []) := by
  obtain ⟨hB, hsize⟩ := hInv
  have hex : ∃ j, j ≤ B ∧ h.m_buckets j ≠ [] := by
    have hne : h.nodes ≠ 0 := by
      intro h0
      rw [h0] at hsize
      simp at hsize
      exact hsz hsize
    obtain ⟨x, hx⟩ := Multiset.exists_mem_of_ne_zero hne
    have hx2 : x ∈ ∑ j ∈ Finset.range (B + 1),
        (↑(h.m_buckets j) : Multiset (RadixHeapNode V)) := hx
    obtain ⟨j, hjr, hxj⟩ := (Finset.mem_sum (Finset.range (B + 1)) x).mp hx2
    refine ⟨j, by have := Finset.mem_range.mp hjr; omega, ?_⟩
    intro hempty
    rw [hempty] at hxj
    simp at hxj
  obtain ⟨j0, hj0B, hj0ne⟩ := hex
  have hj0pos : j0 ≠ 0 := by
    intro hh
    rw [hh, hb] at hj0ne
    exact hj0ne rfl
  have hmaskne : h.m_bucketMask ≠ 0 := by
    intro h0
    have hbit := (hB.mask_iff j0 (by omega) hj0B).mpr hj0ne
    rw [h0, Nat.zero_testBit] at hbit
    exact Bool.noConfusion hbit
  have hs0 : msbSet h.m_bucketMask ≠ 0 :=
    fun hh => hmaskne ((msbSet_eq_zero_iff _).mp hh)
  have hsB : msbSet h.m_bucketMask ≤ B := (msbSet_le_iff _ B).mpr hB.mask_lt
  have hbit : h.m_bucketMask.testBit (B - (B + 1 - msbSet h.m_bucketMask)) = true := by
    have hBind : B - (B + 1 - msbSet h.m_bucketMask) = msbSet h.m_bucketMask - 1 := by
      omega
    rw [hBind]
    exact testBit_msbSet_pred h.m_bucketMask hmaskne
  have hne_ind : h.m_buckets (B + 1 - msbSet h.m_bucketMask) ≠ [] :=
    (hB.mask_iff (B + 1 - msbSet h.m_bucketMask) (by omega) (by omega)).mp hbit
  refine ⟨hmaskne, by omega, by omega, hne_ind, ?_⟩
  intro i hi
  cases Nat.eq_zero_or_pos i with
  | inl h0 =>
    rw [h0]
    exact hb
  | inr hpos =>
    have hige : msbSet h.m_bucketMask ≤ B - i := by omega
    have hbitf : h.m_bucketMask.testBit (B - i) = false :=
      testBit_false_of_msbSet_le _ _ hige
    by_contra hcon
    have hcc := (hB.mask_iff i (by omega) (by omega)).mpr hcon
    rw [hbitf] at hcc
    exact Bool.noConfusion hcc

/-! ### The claims -/

/-- Claim C1: for every precondition-respecting sequence of pushes and pops
performed on a freshly constructed heap, the priorities of the nodes
returned by the successive pops form a non-decreasing sequence, and the
minimum field never decreases over any continuation of the run. -/
theorem claim1_monotone (ops ops2 : List (Op V)) (hf hg : RadixHeap V B)
    (qs qs2 : List (RadixHeapNode V))
    (hrun : runOps (RadixHeap.new V B) ops = some (hf, qs))
    (hrun2 : runOps hf ops2 = some (hg, qs2)) :
    List.Sorted (fun a b => a ≤ b) (qs.map (fun n => n.priority)) ∧
      hf.m_minimum ≤ hg.m_minimum := by
  obtain ⟨c1, c2, c3, c4, c5⟩ := runOps_spec ops (RadixHeap.new V B) new_inv hf qs hrun
  obtain ⟨d1, d2, d3, d4, d5⟩ := runOps_spec ops2 hf c1 hg qs2 hrun2
  exact ⟨chain_le_sorted _ _ c3, d2⟩

/-- Witness for claim C1 at a concrete run: one push of priority 1 on a
fresh 8-bit heap, then the empty continuation. -/
theorem claim1_monotone_witness :
    runOps (RadixHeap.new Nat 8) [Op.push 0 1]
        = some (((RadixHeap.new Nat 8).push 0 1).1, []) ∧
      runOps (((RadixHeap.new Nat 8).push 0 1).1) []
        = some (((RadixHeap.new Nat 8).push 0 1).1, []) ∧
      (List.Sorted (fun a b => a ≤ b)
          (([] : List (RadixHeapNode Nat)).map (fun n => n.priority)) ∧
        ((RadixHeap.new Nat 8).push 0 1).1.m_minimum
          ≤ ((RadixHeap.new Nat 8).push 0 1).1.m_minimum) :=
  ⟨rfl, rfl, claim1_monotone [Op.push 0 1] [] _ _ [] [] rfl rfl⟩

/-- Claim C2: pushing any width-respecting list of (value, priority) pairs
into a fresh heap and draining it by repeated pops yields exactly the
multiset of inserted pairs, in non-decreasing order of priority. -/
theorem claim2_drain (items : List (V × Nat)) (hp : ∀ x ∈ items, x.2 < 2 ^ B) :
    (↑((drain (pushAll (RadixHeap.new V B) items)
          (pushAll (RadixHeap.new V B) items).m_size).map
        (fun n => (n.value, n.priority))) : Multiset (V × Nat)) = ↑items ∧
      List.Sorted (fun a b => a ≤ b)
        ((drain (pushAll (RadixHeap.new V B) items)
            (pushAll (RadixHeap.new V B) items).m_size).map
          (fun n => n.priority)) := by
  have hp2 : ∀ x ∈ items, (RadixHeap.new V B).m_minimum ≤ x.2 ∧ x.2 < 2 ^ B := by
    intro x hx
    exact ⟨Nat.zero_le _, hp x hx⟩
  obtain ⟨c1, c2, c3, c4⟩ := pushAll_spec items (RadixHeap.new V B) new_inv hp2
  obtain ⟨d1, d2⟩ := drain_spec (pushAll (RadixHeap.new V B) items).m_size _ c1 rfl
  refine ⟨?_, chain_le_sorted _ _ d2⟩
  have hmm : (items.map (fun x => (⟨x.1, x.2⟩ : RadixHeapNode V))).map
      (fun n => (n.value, n.priority)) = items := by
    rw [List.map_map]
    have hco : ((fun n : RadixHeapNode V => (n.value, n.priority)) ∘
        (fun x : V × Nat => (⟨x.1, x.2⟩ : RadixHeapNode V))) = id := by
      funext x
      rfl
    rw [hco, List.map_id]
  calc (↑((drain (pushAll (RadixHeap.new V B) items)
            (pushAll (RadixHeap.new V B) items).m_size).map
          (fun n => (n.value, n.priority))) : Multiset (V × Nat))
      = Multiset.map (fun n : RadixHeapNode V => (n.value, n.priority))
          (↑(drain (pushAll (RadixHeap.new V B) items)
            (pushAll (RadixHeap.new V B) items).m_size)) :=
        (Multiset.map_coe _ _).symm
    _ = Multiset.map (fun n : RadixHeapNode V => (n.value, n.priority))
          (pushAll (RadixHeap.new V B) items).nodes := by rw [d1]
    _ = Multiset.map (fun n : RadixHeapNode V => (n.value, n.priority))
          ((↑(items.map (fun x => (⟨x.1, x.2⟩ : RadixHeapNode V)))) :
            Multiset (RadixHeapNode V)) := by
        rw [c4, new_nodes, add_zero]
    _ = ↑((items.map (fun x => (⟨x.1, x.2⟩ : RadixHeapNode V))).map
          (fun n => (n.value, n.priority))) := Multiset.map_coe _ _
    _ = ↑items := by rw [hmm]

/-- Witness for claim C2 at a concrete input: the single item (0, 5) on an
8-bit heap. -/
theorem claim2_drain_witness :
    (∀ x ∈ [((0 : Nat), 5)], x.2 < 2 ^ 8) ∧
      ((↑((drain (pushAll (RadixHeap.new Nat 8) [(0, 5)])
            (pushAll (RadixHeap.new Nat 8) [(0, 5)]).m_size).map
          (fun n => (n.value, n.priority))) : Multiset (Nat × Nat)) = ↑[((0 : Nat), 5)] ∧
        List.Sorted (fun a b => a ≤ b)
          ((drain (pushAll (RadixHeap.new Nat 8) [(0, 5)])
              (pushAll (RadixHeap.new Nat 8) [(0, 5)]).m_size).map
            (fun n => n.priority))) :=
  ⟨by decide, claim2_drain [(0, 5)] (by decide)⟩

/-- Claim C4: in every reachable state, a node of bucket j satisfies
j = msbSet(priority XOR minimum); consequently no node lies in two distinct
buckets, and nodes of bucket 0 have priority equal to the minimum. -/
theorem claim4_bucket_invariant (h : RadixHeap V B) (hreach : Reachable h) :
    (∀ j, ∀ n ∈ h.m_buckets j, j = msbSet (n.priority ^^^ h.m_minimum)) ∧
      (∀ j1 j2 n, n ∈ h.m_buckets j1 → n ∈ h.m_buckets j2 → j1 = j2) ∧
      (∀ n ∈ h.m_buckets 0, n.priority = h.m_minimum) := by
  obtain ⟨hB, _⟩ := reachable_inv h hreach
  refine ⟨hB.bucket_eq, ?_, ?_⟩
  · intro j1 j2 n h1 h2
    rw [hB.bucket_eq j1 n h1, hB.bucket_eq j2 n h2]
  · intro n hn
    have h0 := hB.bucket_eq 0 n hn
    exact Nat.xor_eq_zero.mp ((msbSet_eq_zero_iff _).mp h0.symm)

/-- Witness for claim C4 at a concrete reachable state: a fresh 8-bit heap
after pushing priority 5. -/
theorem claim4_bucket_invariant_witness :
    Reachable (((RadixHeap.new Nat 8).push 0 5).1) ∧
      ((∀ j, ∀ n ∈ (((RadixHeap.new Nat 8).push 0 5).1).m_buckets j,
          j = msbSet (n.priority ^^^ (((RadixHeap.new Nat 8).push 0 5).1).m_minimum)) ∧
        (∀ j1 j2 n, n ∈ (((RadixHeap.new Nat 8).push 0 5).1).m_buckets j1 →
          n ∈ (((RadixHeap.new Nat 8).push 0 5).1).m_buckets j2 → j1 = j2) ∧
        (∀ n ∈ (((RadixHeap.new Nat 8).push 0 5).1).m_buckets 0,
          n.priority = (((RadixHeap.new Nat 8).push 0 5).1).m_minimum)) :=
  ⟨Reachable.push (RadixHeap.new Nat 8) 0 5 Reachable.init (by decide) (by decide),
    claim4_bucket_invariant _
      (Reachable.push (RadixHeap.new Nat 8) 0 5 Reachable.init (by decide) (by decide))⟩

/-- Claim C6: the builtin-count-leading-zeros overloads and the portable
bit-by-bit fallback of msbSet implement the same contract: on every mask
representable in the word width, both return the 1-based position of the
highest set bit, and 0 for mask 0. -/
theorem claim6_msbSet_equiv (w mask : Nat) (hmask : mask < 2 ^ w) :
    msbSetBuiltin w mask = msbSet mask ∧ msbSetBuiltin w 0 = 0 ∧ msbSet 0 = 0 ∧
      (mask ≠ 0 → mask.testBit (msbSet mask - 1) = true ∧
        (∀ j, msbSet mask ≤ j → mask.testBit j = false)) := by
  refine ⟨?_, rfl, msbSet_zero, ?_⟩
  · rw [msbSetBuiltin]
    by_cases h0 : mask = 0
    · rw [if_pos h0, h0, msbSet_zero]
    · rw [if_neg h0, clz_eq w mask hmask]
      have h1 : msbSet mask ≤ w := (msbSet_le_iff mask w).mpr hmask
      omega
  · intro h0
    exact ⟨testBit_msbSet_pred mask h0,
      fun j hj => testBit_false_of_msbSet_le mask j hj⟩

/-- Witness for claim C6 at the concrete input mask 5 in an 8-bit word. -/
theorem claim6_msbSet_equiv_witness :
    (5 : Nat) < 2 ^ 8 ∧
      (msbSetBuiltin 8 5 = msbSet 5 ∧ msbSetBuiltin 8 0 = 0 ∧ msbSet 0 = 0 ∧
        ((5 : Nat) ≠ 0 → Nat.testBit 5 (msbSet 5 - 1) = true ∧
          (∀ j, msbSet 5 ≤ j → Nat.testBit 5 j = false))) :=
  ⟨by decide, claim6_msbSet_equiv 8 5 (by decide)⟩

/-- Claim C7: when bucket 0 is non-empty, pop unlinks and returns the value
of the head of bucket 0, decrements the size, and leaves minimum, mask and
every bucket other than bucket 0 unchanged. -/
theorem claim7_fast_path (h : RadixHeap V B) (n : RadixHeapNode V)
    (rest : List (RadixHeapNode V)) (hb : h.m_buckets 0 = n :: rest) :
    h.pop = some (n.value, fastState h rest) ∧
      (fastState h rest).m_minimum = h.m_minimum ∧
      (fastState h rest).m_bucketMask = h.m_bucketMask ∧
      (fastState h rest).m_size = h.m_size - 1 ∧
      (fastState h rest).m_buckets 0 = rest ∧
      (∀ j, j ≠ 0 → (fastState h rest).m_buckets j = h.m_buckets j) := by
  have hp : h.popNode = some (n, fastState h rest) := popNode_bucket0 h n rest hb
  refine ⟨?_, rfl, rfl, rfl, ?_, ?_⟩
  · simp only [RadixHeap.pop, hp, Option.map_some']
  · show (if (0 : Nat) = 0 then rest else h.m_buckets 0) = rest
    rw [if_pos rfl]
  · intro j hj
    show (if j = 0 then rest else h.m_buckets j) = h.m_buckets j
    rw [if_neg hj]

/-- Claim C8: after any successful run of n pushes and k pops on a fresh
heap, size() equals n - k with k ≤ n, empty() holds exactly when size() is
0, and a fresh heap has size 0 and minimum 0. -/
theorem claim8_conservation (ops : List (Op V)) (hf : RadixHeap V B)
    (qs : List (RadixHeapNode V))
    (hrun : runOps (RadixHeap.new V B) ops = some (hf, qs)) :
    hf.size = countPushes ops - countPops ops ∧
      countPops ops ≤ countPushes ops ∧
      (hf.empty = true ↔ hf.size = 0) ∧
      (RadixHeap.new V B).size = 0 ∧
      (RadixHeap.new V B).m_minimum = 0 := by
  obtain ⟨c1, c2, c3, c4, c5⟩ := runOps_spec ops (RadixHeap.new V B) new_inv hf qs hrun
  have hnew : (RadixHeap.new V B).m_size = 0 := rfl
  rw [hnew] at c4
  refine ⟨?_, by omega, ?_, rfl, rfl⟩
  · show hf.m_size = countPushes ops - countPops ops
    omega
  · rw [RadixHeap.empty]
    simp [RadixHeap.size]

/-- Witness for claim C8 at a concrete run: a single push of priority 1 on
a fresh 8-bit heap. -/
theorem claim8_conservation_witness :
    runOps (RadixHeap.new Nat 8) [Op.push 0 1]
        = some (((RadixHeap.new Nat 8).push 0 1).1, []) ∧
      (((RadixHeap.new Nat 8).push 0 1).1.size
          = countPushes [Op.push (0 : Nat) 1] - countPops [Op.push (0 : Nat) 1] ∧
        countPops [Op.push (0 : Nat) 1] ≤ countPushes [Op.push (0 : Nat) 1] ∧
        (((RadixHeap.new Nat 8).push 0 1).1.empty = true
          ↔ ((RadixHeap.new Nat 8).push 0 1).1.size = 0) ∧
        (RadixHeap.new Nat 8).size = 0 ∧
        (RadixHeap.new Nat 8).m_minimum = 0) :=
  ⟨rfl, claim8_conservation [Op.push 0 1] _ [] rfl⟩

/-- Claim C10: pushing a value with priority equal to the current minimum
links the new node at the head of bucket 0, and the next pop returns
exactly that value through the bucket-0 fast path, so ties at the minimum
are popped in last-in-first-out order. -/
theorem claim10_lifo_tie (h : RadixHeap V B) (v : V) :
    ((h.push v h.m_minimum).1.pop).map (fun x => x.1) = some v ∧
      (h.push v h.m_minimum).1.m_buckets 0
        = (⟨v, h.m_minimum⟩ : RadixHeapNode V) :: h.m_buckets 0 := by
  have hx : msbSet (h.m_minimum ^^^ h.m_minimum) = 0 := by
    rw [Nat.xor_self, msbSet_zero]
  have hb : (h.push v h.m_minimum).1.m_buckets 0
      = (⟨v, h.m_minimum⟩ : RadixHeapNode V) :: h.m_buckets 0 := by
    show (RadixHeap.insert { h with m_size := h.m_size + 1 }
        ⟨v, h.m_minimum⟩).m_buckets 0 = _
    rw [insert_m_buckets]
    dsimp only
    rw [hx, if_pos rfl]
  have hpop := popNode_bucket0 (h.push v h.m_minimum).1
    ⟨v, h.m_minimum⟩ (h.m_buckets 0) hb
  refine ⟨?_, hb⟩
  simp only [RadixHeap.pop, hpop, Option.map_some', Option.map_map]

/-- Claim C3: on a reachable state where pop takes the slow path (bucket 0
empty, heap non-empty), every node remaining in the drained bucket is
re-routed, by the push-side bucket rule measured against the new minimum,
into a bucket of index strictly smaller than the drained index; and every
occupied bucket index is bounded by BITS. -/
theorem claim3_redistribute (h : RadixHeap V B) (hreach : Reachable h)
    (hsz : h.m_size ≠ 0) (hb : h.m_buckets 0 = [])
    (q : RadixHeapNode V) (rest : List (RadixHeapNode V))
    (hscan : scanMin (h.m_buckets (B + 1 - msbSet h.m_bucketMask)) = some (q, rest)) :
    1 ≤ B + 1 - msbSet h.m_bucketMask ∧
      (∀ r ∈ rest, msbSet (r.priority ^^^ q.priority)
        < B + 1 - msbSet h.m_bucketMask) ∧
      (∀ j, h.m_buckets j ≠ [] → j ≤ B) := by
  have hInv := reachable_inv h hreach
  obtain ⟨hmaskne, hind1, hindB, hne_ind, hlow⟩ := lowest_bucket_facts h hInv hsz hb
  obtain ⟨hB, hsize⟩ := hInv
  have hperm := scanMin_perm _ q rest hscan
  have hqmem : q ∈ h.m_buckets (B + 1 - msbSet h.m_bucketMask) :=
    hperm.mem_iff.mpr (List.mem_cons_self q rest)
  have hq_ge := hB.prio_ge _ q hqmem
  have hq_eq := hB.bucket_eq _ q hqmem
  refine ⟨hind1, ?_, ?_⟩
  · intro r hr
    have hrmem : r ∈ h.m_buckets (B + 1 - msbSet h.m_bucketMask) :=
      hperm.mem_iff.mpr (List.mem_cons_of_mem q hr)
    exact redistribute_lt h.m_minimum q.priority r.priority _ hq_ge hq_eq.symm hind1
      (hB.prio_ge _ r hrmem) (hB.bucket_eq _ r hrmem).symm
  · intro j hj
    by_contra hcon
    exact hj (buckets_high_empty h hB j (by omega))

/-- Witness for claim C3 at a concrete reachable state: a fresh 8-bit heap
after pushing priority 5; the slow path drains bucket 3. -/
theorem claim3_redistribute_witness :
    (Reachable (((RadixHeap.new Nat 8).push 0 5).1) ∧
      (((RadixHeap.new Nat 8).push 0 5).1).m_size ≠ 0 ∧
      (((RadixHeap.new Nat 8).push 0 5).1).m_buckets 0 = [] ∧
      scanMin ((((RadixHeap.new Nat 8).push 0 5).1).m_buckets
          (8 + 1 - msbSet (((RadixHeap.new Nat 8).push 0 5).1).m_bucketMask))
        = some (⟨0, 5⟩, [])) ∧
      (1 ≤ 8 + 1 - msbSet (((RadixHeap.new Nat 8).push 0 5).1).m_bucketMask ∧
        (∀ r ∈ ([] : List (RadixHeapNode Nat)),
          msbSet (r.priority ^^^ (⟨0, 5⟩ : RadixHeapNode Nat).priority)
            < 8 + 1 - msbSet (((RadixHeap.new Nat 8).push 0 5).1).m_bucketMask) ∧
        (∀ j, (((RadixHeap.new Nat 8).push 0 5).1).m_buckets j ≠ [] → j ≤ 8)) := by
  have h1 : Reachable (((RadixHeap.new Nat 8).push 0 5).1) :=
    Reachable.push (RadixHeap.new Nat 8) 0 5 Reachable.init (by decide) (by decide)
  have h2 : (((RadixHeap.new Nat 8).push 0 5).1).m_size ≠ 0 := by decide
  have h3 : (((RadixHeap.new Nat 8).push 0 5).1).m_buckets 0 = [] := by
    simp [RadixHeap.push, RadixHeap.insert, RadixHeap.new, msbSet]
  have h4 : scanMin ((((RadixHeap.new Nat 8).push 0 5).1).m_buckets
      (8 + 1 - msbSet (((RadixHeap.new Nat 8).push 0 5).1).m_bucketMask))
      = some (⟨0, 5⟩, []) := by
    simp [RadixHeap.push, RadixHeap.insert, RadixHeap.new, msbSet, scanMin]
  exact ⟨⟨h1, h2, h3, h4⟩, claim3_redistribute _ h1 h2 h3 _ _ h4⟩

/-- Claim C5: in every reachable state, bit (BITS - i) of the bucket mask
is set exactly when bucket i is non-empty (for i in 1..BITS); hence when
bucket 0 is empty and the heap is not, the index BITS + 1 - msbSet(mask)
denotes a non-empty bucket below which every bucket is empty, and the mask
invariant holds again after the pop. -/
theorem claim5_mask_invariant (h : RadixHeap V B) (hreach : Reachable h) :
    (∀ i, 1 ≤ i → i ≤ B →
      (h.m_bucketMask.testBit (B - i) = true ↔ h.m_buckets i ≠ [])) ∧
      (h.m_buckets 0 = [] → h.m_size ≠ 0 →
        h.m_buckets (B + 1 - msbSet h.m_bucketMask) ≠ [] ∧
          (∀ i, i < B + 1 - msbSet h.m_bucketMask → h.m_buckets i = []) ∧
          (∀ q h2, h.popNode = some (q, h2) →
            ∀ i, 1 ≤ i → i ≤ B →
              (h2.m_bucketMask.testBit (B - i) = true ↔ h2.m_buckets i ≠ []))) := by
  have hInv := reachable_inv h hreach
  refine ⟨hInv.1.mask_iff, ?_⟩
  intro hb hsz
  obtain ⟨hmaskne, hind1, hindB, hne_ind, hlow⟩ := lowest_bucket_facts h hInv hsz hb
  refine ⟨hne_ind, hlow, ?_⟩
  intro q h2 hpop i h1 h2i
  obtain ⟨q2, h3, hpop2, hInv2, _⟩ := popNode_spec h hInv hsz
  rw [hpop] at hpop2
  simp only [Option.some.injEq, Prod.mk.injEq] at hpop2
  obtain ⟨he1, he2⟩ := hpop2
  rw [he2]
  exact hInv2.1.mask_iff i h1 h2i

/-- Witness for claim C5 at a concrete reachable state: a fresh 8-bit heap
after pushing priority 5. -/
theorem claim5_mask_invariant_witness :
    Reachable (((RadixHeap.new Nat 8).push 0 5).1) ∧
      ((∀ i, 1 ≤ i → i ≤ 8 →
        ((((RadixHeap.new Nat 8).push 0 5).1).m_bucketMask.testBit (8 - i) = true
          ↔ (((RadixHeap.new Nat 8).push 0 5).1).m_buckets i ≠ [])) ∧
        ((((RadixHeap.new Nat 8).push 0 5).1).m_buckets 0 = [] →
          (((RadixHeap.new Nat 8).push 0 5).1).m_size ≠ 0 →
          (((RadixHeap.new Nat 8).push 0 5).1).m_buckets
              (8 + 1 - msbSet (((RadixHeap.new Nat 8).push 0 5).1).m_bucketMask) ≠ [] ∧
            (∀ i, i < 8 + 1 - msbSet (((RadixHeap.new Nat 8).push 0 5).1).m_bucketMask →
              (((RadixHeap.new Nat 8).push 0 5).1).m_buckets i = []) ∧
            (∀ q h2, (((RadixHeap.new Nat 8).push 0 5).1).popNode = some (q, h2) →
              ∀ i, 1 ≤ i → i ≤ 8 →
                (h2.m_bucketMask.testBit (8 - i) = true ↔ h2.m_buckets i ≠ [])))) :=
  ⟨Reachable.push (RadixHeap.new Nat 8) 0 5 Reachable.init (by decide) (by decide),
    claim5_mask_invariant _
      (Reachable.push (RadixHeap.new Nat 8) 0 5 Reachable.init (by decide) (by decide))⟩

/-- Witness for claim C7 at a concrete state: a fresh 8-bit heap after
pushing priority 0, whose bucket 0 holds exactly that node. -/
theorem claim7_fast_path_witness :
    (((RadixHeap.new Nat 8).push 7 0).1).m_buckets 0 = [⟨7, 0⟩] ∧
      ((((RadixHeap.new Nat 8).push 7 0).1).pop
          = some ((⟨7, 0⟩ : RadixHeapNode Nat).value,
            fastState (((RadixHeap.new Nat 8).push 7 0).1) []) ∧
        (fastState (((RadixHeap.new Nat 8).push 7 0).1) []).m_minimum
          = (((RadixHeap.new Nat 8).push 7 0).1).m_minimum ∧
        (fastState (((RadixHeap.new Nat 8).push 7 0).1) []).m_bucketMask
          = (((RadixHeap.new Nat 8).push 7 0).1).m_bucketMask ∧
        (fastState (((RadixHeap.new Nat 8).push 7 0).1) []).m_size
          = (((RadixHeap.new Nat 8).push 7 0).1).m_size - 1 ∧
        (fastState (((RadixHeap.new Nat 8).push 7 0).1) []).m_buckets 0 = [] ∧
        (∀ j, j ≠ 0 → (fastState (((RadixHeap.new Nat 8).push 7 0).1) []).m_buckets j
          = (((RadixHeap.new Nat 8).push 7 0).1).m_buckets j)) := by
  have hb : (((RadixHeap.new Nat 8).push 7 0).1).m_buckets 0 = [⟨7, 0⟩] := by
    simp [RadixHeap.push, RadixHeap.insert, RadixHeap.new, msbSet]
  exact ⟨hb, claim7_fast_path _ ⟨7, 0⟩ [] hb⟩

/-- Claim C9: the concrete scenario: pushing ("a", 5), ("b", 2), ("c", 8)
onto a fresh heap, popping, pushing ("d", 6), and popping three more times
returns "b", "a", "d", "c" with priorities 2, 5, 6, 8; the minimum is 2,
5 and 6 after the first, second and third pop respectively, and the heap
is empty at the end. -/
theorem claim9_scenario :
    (runOps (RadixHeap.new String 8) scenarioOps).map
        (fun x => (x.2.map (fun n => (n.value, n.priority)), x.1.empty))
      = some ([("b", 2), ("a", 5), ("d", 6), ("c", 8)], true) ∧
      (runOps (RadixHeap.new String 8) (scenarioOps.take 4)).map
          (fun x => x.1.m_minimum) = some 2 ∧
      (runOps (RadixHeap.new String 8) (scenarioOps.take 6)).map
          (fun x => x.1.m_minimum) = some 5 ∧
      (runOps (RadixHeap.new String 8) (scenarioOps.take 7)).map
          (fun x => x.1.m_minimum) = some 6 := by
  refine ⟨?_, ?_, ?_, ?_⟩ <;>
    simp [scenarioOps, runOps, RadixHeap.push, RadixHeap.insert, RadixHeap.popNode,
      scanMin, RadixHeap.new, RadixHeap.empty, RadixHeap.size, msbSet]

end OgdfRadix
